import Mathlib

/-!
Verification of the name-extraction pipeline of this repository.

The embedding models `src/index.py` (the most complete pipeline variant:
`SPARKLE_RE`, `GENDER_TAG_RE`, `LINE_START_NAME_RE`, `TRAILING_NOTES_RE`,
`clean_name_token`, `extract_names_in_order`, `dedupe_preserve_first`, and the
upload route's composition of the last two) and `src/api/app.py`
(`RE_SPARK`, `RE_FALLBACK`, `extract_names` with its rejection word set).

Text is modelled as `List Char` (Unicode scalar values, as in Python 3
strings), with `String` wrappers at the outer interface.  Python's regular
expressions are embedded as explicit scanning functions implementing the
exact backtracking behaviour of the concrete patterns used by the source
(each pattern is simple enough that its leftmost-match/greedy/lazy semantics
reduce to deterministic scans, noted at each definition).  Character
classification (`\s`, `\w`, `\d`, `str.casefold`, `str.lower`) is modelled on
the repertoire the program targets (Basic Latin, Latin-1 and Latin
Extended-A; the source itself restricts name characters to these ranges), and
is the identity outside it.  Scanners recurse on an explicit fuel argument
initialised to `length + 1`; every step consumes at least one character, so
the fuel never runs out on the initial call.
-/

/-- Python `str.isspace` / regex `\s` (Unicode whitespace). -/
def isPySpace (c : Char) : Bool :=
  let n := c.toNat
  n == 32 || (9 ≤ n && n ≤ 13) || (28 ≤ n && n ≤ 31) || n == 133 || n == 160 ||
  n == 0x1680 || (0x2000 ≤ n && n ≤ 0x200A) || n == 0x2028 || n == 0x2029 ||
  n == 0x202F || n == 0x205F || n == 0x3000

/-- Unicode simple lowercase mapping on the Latin repertoire. -/
def latinLower (c : Char) : Char :=
  let n := c.toNat
  if 65 ≤ n && n ≤ 90 then Char.ofNat (n + 32)
  else if 0xC0 ≤ n && n ≤ 0xDE && n != 0xD7 then Char.ofNat (n + 32)
  else if n == 0x178 then Char.ofNat 0xFF
  else c

/-- Unicode simple uppercase mapping on the Latin repertoire. -/
def latinUpper (c : Char) : Char :=
  let n := c.toNat
  if 97 ≤ n && n ≤ 122 then Char.ofNat (n - 32)
  else if 0xE0 ≤ n && n ≤ 0xFE && n != 0xF7 then Char.ofNat (n - 32)
  else if n == 0xFF then Char.ofNat 0x178
  else c

/-- Python `str.casefold` of one character (Latin repertoire):
lowercasing, with the two Latin-1 full foldings ß → ss and µ → μ. -/
def pyCasefoldChar (c : Char) : List Char :=
  if c.toNat == 0xDF then [Char.ofNat 0x73, Char.ofNat 0x73]
  else if c.toNat == 0xB5 then [Char.ofNat 0x3BC]
  else [latinLower c]

/-- Python `str.casefold` (used as the dedupe key in `dedupe_preserve_first`). -/
def pyCasefold (cs : List Char) : List Char :=
  cs.flatMap pyCasefoldChar

/-- Python `str.lower` (used as the dedupe key in `api/app.py`). -/
def pyLower (cs : List Char) : List Char :=
  cs.map latinLower

/-- Unicode letter, on the Latin repertoire (regex `\w` minus digits and
underscore; the complement of `[\d\W_]`). -/
def isPyLetter (c : Char) : Bool :=
  let n := c.toNat
  (65 ≤ n && n ≤ 90) || (97 ≤ n && n ≤ 122) || n == 0xAA || n == 0xB5 || n == 0xBA ||
  (0xC0 ≤ n && n ≤ 0xFF && n != 0xD7 && n != 0xF7) || (0x100 ≤ n && n ≤ 0x17F)

/-- Regex `\w` (word character), Latin repertoire. -/
def isWordChar (c : Char) : Bool :=
  isPyLetter c || (48 ≤ c.toNat && c.toNat ≤ 57) || c == '_'

/-- The character class of `GENDER_TAG_RE` and `LINE_START_NAME_RE` in
`src/index.py`: `[A-Za-zÀ-ÖØ-öø-ÿ'’\.·　\-\–\— ]`. -/
def isNameChar (c : Char) : Bool :=
  let n := c.toNat
  (65 ≤ n && n ≤ 90) || (97 ≤ n && n ≤ 122) ||
  (0xC0 ≤ n && n ≤ 0xD6) || (0xD8 ≤ n && n ≤ 0xF6) || (0xF8 ≤ n && n ≤ 0xFF) ||
  n == 39 || n == 0x2019 || n == 46 || n == 0xB7 || n == 0x3000 ||
  n == 45 || n == 0x2013 || n == 0x2014 || n == 32

/-- `GENDER_TAG_RE` is compiled with `re.IGNORECASE`: a character matches its
class if the character or a case variant belongs to it. -/
def genderNameChar (c : Char) : Bool :=
  isNameChar c || isNameChar (latinLower c) || isNameChar (latinUpper c)

/-- The character class of `RE_FALLBACK` in `src/api/app.py`:
`[A-Za-z0-9À-ſ'’\-\.\s]`. -/
def fallbackNameChar (c : Char) : Bool :=
  let n := c.toNat
  (65 ≤ n && n ≤ 90) || (97 ≤ n && n ≤ 122) || (48 ≤ n && n ≤ 57) ||
  (0xC0 ≤ n && n ≤ 0x17F) || n == 39 || n == 0x2019 || n == 45 || n == 46 ||
  isPySpace c

/-- Remove a trailing run of characters satisfying `p`
(right half of Python `str.strip` / `str.rstrip`). -/
def dropTrailingBy (p : Char → Bool) : List Char → List Char
  | [] => []
  | c :: rest =>
    match dropTrailingBy p rest with
    | [] => if p c then [] else [c]
    | r => c :: r

/-- Python `str.strip()` (no arguments: Unicode whitespace on both ends). -/
def pyStrip (cs : List Char) : List Char :=
  dropTrailingBy isPySpace (cs.dropWhile isPySpace)

/-- The stray-punctuation set of `clean_name_token`'s
`name.rstrip("·•°●[]<>" and braces)`. -/
def strayPunct : List Char :=
  ['·', '•', '°', '●', Char.ofNat 0x5B, Char.ofNat 0x5D,
   Char.ofNat 0x7B, Char.ofNat 0x7D, Char.ofNat 60, Char.ofNat 62]

/-- Python `name.rstrip("·•°●[]{}<>")` (the braces written by code point). -/
def pyRstripPunct (cs : List Char) : List Char :=
  dropTrailingBy (fun c => strayPunct.contains c) cs

/-- Python `re.sub(r"\s+", " ", name)`: every maximal whitespace run becomes
one space. -/
def collapseWS : List Char → List Char
  | [] => []
  | c :: rest =>
    let acc := collapseWS rest
    if isPySpace c then
      match acc with
      | d :: t => if d == ' ' then acc else ' ' :: d :: t
      | [] => [' ']
    else c :: acc

/-- The full-width space replaced by a plain space at the start of
`clean_name_token`. -/
def fwSpace : Char := '　'

/-- Python `name.split(q, 1)[0].strip()` guarded by `if q in name`
(one step of the quote-nickname and parenthesis truncation loops). -/
def cutAtChar (q : Char) (cs : List Char) : List Char :=
  if cs.contains q then pyStrip (cs.takeWhile (fun d => !(d == q))) else cs

/-- The five quote characters of `clean_name_token`'s nickname loop. -/
def quoteCharsL : List Char :=
  [Char.ofNat 34, '“', '”', Char.ofNat 39, '’']

/-- First index at which `pat` occurs as a contiguous sublist (Python
`str.find` for the separator truncation). -/
def firstOccurIdx : List Char → List Char → Option Nat
  | pat, [] => if pat.isEmpty then some 0 else none
  | pat, c :: rest =>
    if pat.isPrefixOf (c :: rest) then some 0
    else (firstOccurIdx pat rest).map (· + 1)

/-- Python `name.split(sep, 1)[0].strip()` guarded by `if sep in name`. -/
def cutAtSeq (pat : List Char) (cs : List Char) : List Char :=
  match firstOccurIdx pat cs with
  | some i => pyStrip (cs.take i)
  | none => cs

/-- The dash/slash separator list of `clean_name_token`, in source order. -/
def sepStrs : List (List Char) :=
  [" - ".data, " — ".data, " – ".data, " —".data, " –".data, " -".data, " / ".data]

/-- Case-insensitive literal prefix test (the literal is given lowercase). -/
def lowPrefix : List Char → List Char → Bool
  | [], _ => true
  | _ :: _, [] => false
  | l :: ls, c :: cs => latinLower c == l && lowPrefix ls cs

/-- Regex `\b` between an optional left character and an optional right
character (out of range counts as non-word). -/
def wordB (a b : Option Char) : Bool :=
  (match a with | some c => isWordChar c | none => false) !=
  (match b with | some c => isWordChar c | none => false)

/-- One attempt of `TRAILING_NOTES_RE`'s alternation (plus the trailing `\b`)
at the head of `cs`; the leading `\b` is checked by the caller.  Alternatives
are tried in source order; each returns the number of characters it consumes.
`gift\s+from` can only match with the maximal whitespace run (the literal
`from` cannot start with whitespace), so no further backtracking arises. -/
def altTry (cs : List Char) : Option Nat :=
  let outerOk : Nat → Bool := fun e =>
    wordB ((cs.take e).getLast?) ((cs.drop e).head?)
  if lowPrefix "gift".data cs &&
      (let w := ((cs.drop 4).takeWhile isPySpace).length
       1 ≤ w && lowPrefix "from".data (cs.drop (4 + w)) && outerOk (8 + w)) then
    some (8 + ((cs.drop 4).takeWhile isPySpace).length)
  else if lowPrefix "fs".data cs && outerOk 2 then some 2
  else if lowPrefix "giveaway".data cs && outerOk 8 then some 8
  else if lowPrefix "meow".data cs && outerOk 4 then some 4
  else if lowPrefix ":wattrel:".data cs && outerOk 9 then some 9
  else if lowPrefix ":wattrel".data cs && outerOk 8 then some 8
  else if lowPrefix ":wattrel:".data cs && outerOk 9 then some 9
  else if lowPrefix ":wattrel".data cs && outerOk 8 then some 8
  else none

/-- Python `re.sub(TRAILING_NOTES_RE, "", name)`: scan left to right; at a
word boundary try the alternation; a match deletes through the end of the
line (`.*` stops before a newline) and scanning resumes at the match end,
with boundary tests still reading the original characters. -/
def trailingGo : Nat → List Char → Option Char → List Char
  | _, [], _ => []
  | 0, l, _ => l
  | fuel + 1, c :: rest, prev =>
    if wordB prev (some c) then
      match altTry (c :: rest) with
      | some e =>
        let mlen := e + (((c :: rest).drop e).takeWhile (fun d => !(d == '\n'))).length
        trailingGo fuel ((c :: rest).drop mlen) (((c :: rest).take mlen).getLast?)
      | none => c :: trailingGo fuel rest (some c)
    else c :: trailingGo fuel rest (some c)

/-- `re.sub(TRAILING_NOTES_RE, "", name)` over a whole string. -/
def trailingSub (cs : List Char) : List Char :=
  trailingGo (cs.length + 1) cs none

/-- `clean_name_token` from `src/index.py`, step by step in source order:
full-width spaces to spaces and strip; strip the leading `[\d\W_]+` run
(everything that is not a letter); cut at each quote character; cut at an
opening parenthesis; cut at each dash/slash separator; delete trailing-note
clauses; strip stray trailing punctuation; collapse whitespace runs. -/
def clean_name_token (raw : List Char) : List Char :=
  if raw.isEmpty then [] else
  let n1 := pyStrip (raw.map (fun c => if c == fwSpace then ' ' else c))
  let n2 := pyStrip (n1.dropWhile (fun c => !isPyLetter c))
  let n3 := quoteCharsL.foldl (fun s q => cutAtChar q s) n2
  let n4 := cutAtChar (Char.ofNat 40) n3
  let n5 := sepStrs.foldl (fun s sep => cutAtSeq sep s) n4
  let n6 := pyStrip (trailingSub n5)
  let n7 := pyRstripPunct n6
  pyStrip (collapseWS n7)

/-- The sparkle marker of `SPARKLE_RE`. -/
def sparkleChar : Char := '✨'

/-- `SPARKLE_RE.finditer`: the pattern `✨\s*([^:]+):`.  At a marker, the
greedy `[^:]+` runs to the first colon; the greedy `\s*` keeps the leading
whitespace out of the group except that the group must keep one character.
Scanning resumes after the colon; without a colon (or with the colon
immediately after the marker) the engine advances one position. -/
def sparkleGo : Nat → List Char → Nat → List (Nat × List Char)
  | _, [], _ => []
  | 0, _ :: _, _ => []
  | fuel + 1, c :: rest, pos =>
    if c == sparkleChar then
      let nonColon := rest.takeWhile (fun d => !(d == ':'))
      let k := nonColon.length
      if 1 ≤ k ∧ k < rest.length then
        let p := min (nonColon.takeWhile isPySpace).length (k - 1)
        (pos, nonColon.drop p) :: sparkleGo fuel (rest.drop (k + 1)) (pos + k + 2)
      else sparkleGo fuel rest (pos + 1)
    else sparkleGo fuel rest (pos + 1)

/-- The literal alternation `(?:male|female|unknown)\b` of `GENDER_TAG_RE`
(case-insensitive, alternatives in source order), returning the number of
characters consumed. -/
def keywordCheck (cs : List Char) : Option Nat :=
  let nonWordAt : Nat → Bool := fun i =>
    match (cs.drop i).head? with
    | some d => !isWordChar d
    | none => true
  if lowPrefix "male".data cs && nonWordAt 4 then some 4
  else if lowPrefix "female".data cs && nonWordAt 6 then some 6
  else if lowPrefix "unknown".data cs && nonWordAt 7 then some 7
  else none

/-- One attempt of `GENDER_TAG_RE`
(`(?<!\S)([class]{2,120}):\s*(?:male|female|unknown)\b`) at a start
position, given the previous character (for the `(?<!\S)` lookbehind).
The greedy class run must end exactly at a colon (the class excludes the
colon) and fit the 2..120 bound; `\s*` then takes the maximal whitespace run
(the literals cannot begin with whitespace).  Returns the group, the number
of characters consumed through the matched literal, and the last consumed
character. -/
def genderTry (cs : List Char) (prev : Option Char) :
    Option (List Char × Nat × Option Char) :=
  match cs with
  | [] => none
  | c :: _ =>
    let lookOk := match prev with | none => true | some p => isPySpace p
    if lookOk && genderNameChar c then
      let run := cs.takeWhile genderNameChar
      let n := run.length
      if 2 ≤ n ∧ n ≤ 120 ∧ (cs.drop n).head? = some ':' then
        let tail1 := cs.drop (n + 1)
        let w := (tail1.takeWhile isPySpace).length
        let tail2 := tail1.drop w
        match keywordCheck tail2 with
        | some klen => some (run, n + 1 + w + klen, (tail2.take klen).getLast?)
        | none => none
      else none
    else none

/-- `GENDER_TAG_RE.finditer`: on failure the engine advances one position;
on success it resumes after the matched literal. -/
def genderGo : Nat → List Char → Nat → Option Char → List (Nat × List Char)
  | _, [], _, _ => []
  | 0, _ :: _, _, _ => []
  | fuel + 1, c :: rest, pos, prev =>
    match genderTry (c :: rest) prev with
    | some (run, consumed, np) =>
      (pos, run) :: genderGo fuel ((c :: rest).drop consumed) (pos + consumed) np
    | none => genderGo fuel rest (pos + 1) (some c)

/-- One attempt of `LINE_START_NAME_RE` at a line start, with the greedy
`\s*` taking `w` characters: the class run from there must end exactly at a
colon and fit the 2..120 bound.  Returns the group and the total number of
characters consumed (through the colon). -/
def lineTryAt (cs : List Char) (w : Nat) : Option (List Char × Nat) :=
  let run := (cs.drop w).takeWhile isNameChar
  let n := run.length
  if 2 ≤ n ∧ n ≤ 120 ∧ ((cs.drop w).drop n).head? = some ':' then
    some (run, w + n + 1)
  else none

/-- Greedy backtracking of the `\s*` of `LINE_START_NAME_RE`: try the
maximal whitespace run first, then shorter ones. -/
def lineTryFrom (cs : List Char) : Nat → Option (List Char × Nat)
  | 0 => lineTryAt cs 0
  | w + 1 =>
    match lineTryAt cs (w + 1) with
    | some r => some r
    | none => lineTryFrom cs w

/-- `LINE_START_NAME_RE` attempted at one line start. -/
def lineTry (cs : List Char) : Option (List Char × Nat) :=
  lineTryFrom cs (cs.takeWhile isPySpace).length

/-- `LINE_START_NAME_RE.finditer`: `(?m)^\s*([class]{2,120}):`.  `^` matches
at offset 0 and after each newline; the reported match offset is the line
start (before the whitespace).  After a match, scanning resumes just past
the colon (never a line start). -/
def lineGo : Nat → List Char → Nat → Bool → List (Nat × List Char)
  | _, [], _, _ => []
  | 0, _ :: _, _, _ => []
  | fuel + 1, c :: rest, pos, atStart =>
    if atStart then
      match lineTry (c :: rest) with
      | some (grp, consumed) =>
        (pos, grp) :: lineGo fuel ((c :: rest).drop consumed) (pos + consumed) false
      | none => lineGo fuel rest (pos + 1) (c == '\n')
    else lineGo fuel rest (pos + 1) (c == '\n')

/-- All matches of `SPARKLE_RE.finditer` over a text. -/
def sparkle_matches (text : List Char) : List (Nat × List Char) :=
  sparkleGo (text.length + 1) text 0

/-- All matches of `GENDER_TAG_RE.finditer` over a text. -/
def gender_matches (text : List Char) : List (Nat × List Char) :=
  genderGo (text.length + 1) text 0 none

/-- All matches of `LINE_START_NAME_RE.finditer` over a text. -/
def line_matches (text : List Char) : List (Nat × List Char) :=
  lineGo (text.length + 1) text 0 true

/-- The three `finditer` passes of `extract_names_in_order`, appended in
source order (sparkle, gender tag, line start), before sorting. -/
def rawMatches (text : List Char) : List (Nat × List Char) :=
  sparkle_matches text ++ gender_matches text ++ line_matches text

/-- Each raw group is stripped and cleaned; empty results are dropped
(`if cleaned:`), keeping the match offset. -/
def cleanedMatches (text : List Char) : List (Nat × List Char) :=
  (rawMatches text).filterMap (fun pg =>
    if (clean_name_token (pyStrip pg.2)).isEmpty then none
    else some (pg.1, clean_name_token (pyStrip pg.2)))

/-- Ordering by match offset, the key of `matches.sort(key=lambda t: t[0])`. -/
def posLe (a b : Nat × List Char) : Prop := a.1 ≤ b.1

instance : DecidableRel posLe := fun a b => inferInstanceAs (Decidable (a.1 ≤ b.1))

instance : IsTotal (Nat × List Char) posLe := ⟨fun a b => Nat.le_total a.1 b.1⟩

instance : IsTrans (Nat × List Char) posLe := ⟨fun _ _ _ => Nat.le_trans⟩

/-- `extract_names_in_order` from `src/index.py`: collect the cleaned
matches of the three rules, sort them stably by match offset (Python's sort
is stable; insertion sort with a total `≤` is the same stable permutation),
and return the names in that order. -/
def extract_names_in_order (text : List Char) : List (List Char) :=
  if text.isEmpty then []
  else (List.insertionSort posLe (cleanedMatches text)).map (·.2)

/-- `Counter` lookup (0 for a missing key). -/
def counterGet (counts : List (List Char × Nat)) (k : List Char) : Nat :=
  match counts.find? (fun p => p.1 == k) with
  | some p => p.2
  | none => 0

/-- `counts[key] += 1` on a `Counter` modelled as an insertion-ordered
association list: bump the entry when present, append a fresh entry (count 1)
otherwise. -/
def counterIncr : List (List Char × Nat) → List Char → List (List Char × Nat)
  | [], k => [(k, 1)]
  | p :: rest, k => if p.1 = k then (p.1, p.2 + 1) :: rest else p :: counterIncr rest k

/-- `if key not in seen: seen[key] = n` on an `OrderedDict` modelled as an
insertion-ordered association list, with key function `key`. -/
def seenInsert (key : List Char → List Char) (s : List (List Char × List Char))
    (n : List Char) : List (List Char × List Char) :=
  if s.any (fun p => p.1 == key n) then s else s ++ [(key n, n)]

/-- One iteration of the loop of `dedupe_preserve_first`: fold the name's
case to get the key, bump its count, record the first-seen original form. -/
def dedupeStep (st : List (List Char × List Char) × List (List Char × Nat))
    (n : List Char) : List (List Char × List Char) × List (List Char × Nat) :=
  (seenInsert pyCasefold st.1 n, counterIncr st.2 (pyCasefold n))

/-- `dedupe_preserve_first` from `src/index.py`: the unique list is the
first-seen forms in insertion order; the duplicates map enumerates the seen
keys in the same order, keeping those with total count at least two, valued
at count minus one. -/
def dedupe_preserve_first (names : List (List Char)) :
    List (List Char) × List (List Char × Nat) :=
  let st := names.foldl dedupeStep ([], [])
  (st.1.map (·.2),
   st.1.filterMap (fun p =>
     if 2 ≤ counterGet st.2 p.1 then some (p.2, counterGet st.2 p.1 - 1) else none))

/-- The core operation `extract` of the spec: the composition
`dedupe_preserve_first (extract_names_in_order text)` performed by the
upload route of `src/index.py`, at `String` level. -/
def extract (s : String) : List String × List (String × Nat) :=
  let r := dedupe_preserve_first (extract_names_in_order s.data)
  (r.1.map (fun n => ⟨n⟩), r.2.map (fun p => (⟨p.1⟩, p.2)))

/-- `RE_SPARK.finditer` from `src/api/app.py`: `✨\s*([^:]+?)\s*:`.  The
greedy leading `\s*` and trailing `\s*` squeeze the lazy group to the
stripped non-colon run; when that run is all whitespace the leading `\s*`
backtracks one character and the group is the run's last character. -/
def reSparkGo : Nat → List Char → List (List Char)
  | _, [] => []
  | 0, _ :: _ => []
  | fuel + 1, c :: rest =>
    if c == sparkleChar then
      let run := rest.takeWhile (fun d => !(d == ':'))
      let k := run.length
      if 1 ≤ k ∧ k < rest.length then
        (match pyStrip run with
         | [] => run.drop (k - 1)
         | t => t) :: reSparkGo fuel (rest.drop (k + 1))
      else reSparkGo fuel rest
    else reSparkGo fuel rest

/-- The keyword alternation of `RE_FALLBACK`:
`(?:male|female|unknown|♂️|♀️)` (case-insensitive, no trailing `\b`),
the gender glyphs being the signs U+2642 / U+2640 followed by the variation
selector U+FE0F. -/
def fbKeyword (cs : List Char) : Option Nat :=
  if lowPrefix "male".data cs then some 4
  else if lowPrefix "female".data cs then some 6
  else if lowPrefix "unknown".data cs then some 7
  else if List.isPrefixOf ['♂', '️'] cs then some 2
  else if List.isPrefixOf ['♀', '️'] cs then some 2
  else none

/-- One attempt of `RE_FALLBACK` (`([class]+?)\s*:\s*(?:male|female|unknown|♂️|♀️)`)
at a start position.  The class contains `\s` but not the colon, so the
pre-colon `\s*` absorbs the class run's trailing whitespace and the colon
sits exactly at the run's end; the lazy group is the run without its
trailing whitespace, but keeps one character when the run is all
whitespace. -/
def fbTry (cs : List Char) : Option (List Char × Nat) :=
  match cs with
  | [] => none
  | c :: _ =>
    if fallbackNameChar c then
      let run := cs.takeWhile fallbackNameChar
      let r := run.length
      if (cs.drop r).head? = some ':' then
        let tail1 := cs.drop (r + 1)
        let w := (tail1.takeWhile isPySpace).length
        match fbKeyword (tail1.drop w) with
        | some klen =>
          let base := dropTrailingBy isPySpace run
          some ((if base.isEmpty then run.take 1 else base), r + 1 + w + klen)
        | none => none
      else none
    else none

/-- `RE_FALLBACK.finditer`: scan every start position; a match resumes after
its keyword. -/
def fallbackGo : Nat → List Char → List (List Char)
  | _, [] => []
  | 0, _ :: _ => []
  | fuel + 1, c :: rest =>
    match fbTry (c :: rest) with
    | some (g, consumed) => g :: fallbackGo fuel ((c :: rest).drop consumed)
    | none => fallbackGo fuel rest

/-- The rejection word set of `extract_names` in `src/api/app.py`. -/
def rejectWords : List (List Char) :=
  ["lvl".data, "your".data, "pokétwo".data, "app".data, "showing".data,
   "entries".data, "out".data, "of".data]

/-- The primary pass of `extract_names` in `src/api/app.py`: stripped
non-empty `RE_SPARK` groups, in order. -/
def app_sparkle_names (text : List Char) : List (List Char) :=
  (reSparkGo (text.length + 1) text).filterMap (fun g =>
    let n := pyStrip g
    if n.isEmpty then none else some n)

/-- One iteration of the fallback loop of `extract_names`: the stripped
group is appended unless empty, already collected (by lowercased form), or
in the rejection set; the collected-lowers set is grown alongside. -/
def appFallbackStep (st : List (List Char) × List (List Char)) (g : List Char) :
    List (List Char) × List (List Char) :=
  let n := pyStrip g
  if n.isEmpty then st
  else
    let k := pyLower n
    if st.2.contains k then st
    else if rejectWords.contains k then st
    else (st.1 ++ [n], st.2 ++ [k])

/-- The fallback pass of `extract_names`: stripped non-empty `RE_FALLBACK`
groups are appended unless their lowercased form was already collected or
belongs to the rejection set. -/
def app_names (text : List Char) : List (List Char) :=
  let spark := app_sparkle_names text
  ((fallbackGo (text.length + 1) text).foldl appFallbackStep
    (spark, spark.map pyLower)).1

/-- `extract_names` from `src/api/app.py`: unique first-seen forms keyed by
`str.lower`, plus the duplicate counts (the source renders each duplicate as
the line `f"{name}: {count - 1}"`; the pair holds the same two values). -/
def extract_names (text : List Char) : List (List Char) × List (List Char × Nat) :=
  let names := app_names text
  let seen := names.foldl (seenInsert pyLower) []
  let counts := names.foldl (fun c n => counterIncr c (pyLower n)) []
  (seen.map (·.2),
   counts.filterMap (fun p =>
     if 2 ≤ p.2 then
       some ((match seen.find? (fun q => q.1 == p.1) with
              | some q => q.2
              | none => []), p.2 - 1)
     else none))

/-! ### General list lemmas used by the verification. -/

/-- Minimum of a list of naturals (used to express "the position of a name's
first raw match" independently of the sort). -/
def minNat? : List Nat → Option Nat
  | [] => none
  | n :: rest =>
    match minNat? rest with
    | none => some n
    | some m => some (min n m)

theorem minNat?_spec (l : List Nat) : ∀ m,
    minNat? l = some m ↔ m ∈ l ∧ ∀ x ∈ l, m ≤ x := by
  induction l with
  | nil => intro m; simp [minNat?]
  | cons n rest ih =>
    intro m
    cases h : minNat? rest with
    | none =>
      have hrest : rest = [] := by
        cases rest with
        | nil => rfl
        | cons a t =>
          exfalso
          simp only [minNat?] at h
          cases hh : minNat? t <;> simp [hh] at h
      subst hrest
      simp only [minNat?, List.mem_singleton, List.mem_cons, List.not_mem_nil,
        or_false, Option.some.injEq]
      constructor
      · rintro rfl
        exact ⟨rfl, by intro x hx; rw [hx]⟩
      · rintro ⟨rfl, _⟩
        rfl
    | some k =>
      have hk := (ih k).mp h
      simp only [minNat?, h]
      constructor
      · intro hm
        have hm' : min n k = m := by simpa using hm
        subst hm'
        refine ⟨?_, ?_⟩
        · rcases Nat.le_total n k with hle | hle
          · rw [Nat.min_eq_left hle]; exact List.mem_cons_self _ _
          · rw [Nat.min_eq_right hle]; exact List.mem_cons_of_mem _ hk.1
        · intro x hx
          rcases List.mem_cons.mp hx with rfl | hx'
          · exact Nat.min_le_left _ _
          · exact Nat.le_trans (Nat.min_le_right _ _) (hk.2 x hx')
      · rintro ⟨hmem, hle⟩
        have h1 : m ≤ n := hle n (List.mem_cons_self _ _)
        have h2 : m ≤ k := hle k (List.mem_cons_of_mem _ hk.1)
        have h3 : min n k ≤ m := by
          rcases List.mem_cons.mp hmem with rfl | hx'
          · exact Nat.min_le_left _ _
          · exact Nat.le_trans (Nat.min_le_right _ _) (hk.2 m hx')
        have h4 : min n k = m := Nat.le_antisymm h3 (Nat.le_min.mpr ⟨h1, h2⟩)
        rw [h4]

theorem minNat?_isSome (l : List Nat) (h : l ≠ []) : (minNat? l).isSome := by
  cases l with
  | nil => exact absurd rfl h
  | cons n rest =>
    simp only [minNat?]
    cases minNat? rest <;> simp

theorem minNat?_perm {l₁ l₂ : List Nat} (h : l₁.Perm l₂) :
    minNat? l₁ = minNat? l₂ := by
  cases h1 : minNat? l₁ with
  | none =>
    cases h2 : minNat? l₂ with
    | none => rfl
    | some m =>
      have := ((minNat?_spec l₂ m).mp h2).1
      have hne : l₁ ≠ [] := by
        intro hh
        subst hh
        simp [h.nil_eq.symm] at this
      have := minNat?_isSome l₁ hne
      rw [h1] at this
      simp at this
  | some m =>
    have hm := (minNat?_spec l₁ m).mp h1
    have : minNat? l₂ = some m := by
      rw [minNat?_spec]
      exact ⟨h.mem_iff.mp hm.1, fun x hx => hm.2 x (h.mem_iff.mpr hx)⟩
    rw [this]

theorem findIdx_congr {α : Type} {p q : α → Bool} :
    ∀ {l : List α}, (∀ x ∈ l, p x = q x) → l.findIdx p = l.findIdx q := by
  intro l
  induction l with
  | nil => intro _; rfl
  | cons a t ih =>
    intro h
    rw [List.findIdx_cons, List.findIdx_cons, h a (by simp),
      ih (fun x hx => h x (by simp [hx]))]

theorem findIdx_map {α β : Type} (f : α → β) (p : β → Bool) :
    ∀ (l : List α), (l.map f).findIdx p = l.findIdx (fun a => p (f a)) := by
  intro l
  induction l with
  | nil => rfl
  | cons a t ih => simp [List.findIdx_cons, ih]

theorem foldl_fixed {α β : Type} (f : β → α → β) (b : β) :
    ∀ (l : List α), (∀ a ∈ l, f b a = b) → l.foldl f b = b := by
  intro l
  induction l with
  | nil => intro _; rfl
  | cons a t ih =>
    intro h
    rw [List.foldl_cons, h a (by simp)]
    exact ih (fun x hx => h x (by simp [hx]))

theorem takeWhile_append_all {p : Char → Bool} :
    ∀ {l₁ l₂ : List Char}, (∀ a ∈ l₁, p a = true) →
      (l₁ ++ l₂).takeWhile p = l₁ ++ l₂.takeWhile p := by
  intro l₁
  induction l₁ with
  | nil => intro l₂ _; rfl
  | cons a t ih =>
    intro l₂ h
    simp only [List.cons_append, List.takeWhile_cons, h a (by simp)]
    simp [ih fun x hx => h x (by simp [hx])]

/-! ### Invariants of the deduplicator's fold. -/

theorem dedupeFold_fst (names : List (List Char)) :
    ∀ st : List (List Char × List Char) × List (List Char × Nat),
      (names.foldl dedupeStep st).1 = names.foldl (seenInsert pyCasefold) st.1 := by
  induction names with
  | nil => intro st; rfl
  | cons n rest ih =>
    intro st
    rw [List.foldl_cons, List.foldl_cons]
    exact ih _

theorem dedupeFold_snd (names : List (List Char)) :
    ∀ st : List (List Char × List Char) × List (List Char × Nat),
      (names.foldl dedupeStep st).2 =
        names.foldl (fun c n => counterIncr c (pyCasefold n)) st.2 := by
  induction names with
  | nil => intro st; rfl
  | cons n rest ih =>
    intro st
    rw [List.foldl_cons, List.foldl_cons]
    exact ih _

theorem counterGet_incr : ∀ (c : List (List Char × Nat)) (k' k : List Char),
    counterGet (counterIncr c k') k = counterGet c k + (if k' = k then 1 else 0) := by
  intro c
  induction c with
  | nil =>
    intro k' k
    by_cases h : k' = k
    · simp [counterIncr, counterGet, List.find?_cons, h]
    · have hb : (k' == k) = false := by simp [h]
      simp [counterIncr, counterGet, List.find?_cons, hb, h]
  | cons p rest ih =>
    intro k' k
    by_cases hp : p.1 = k'
    · simp only [counterIncr, if_pos hp]
      by_cases hpk : p.1 = k
      · have : k' = k := hp.symm.trans hpk
        simp [counterGet, List.find?_cons, hpk, this]
      · have : ¬(k' = k) := fun h => hpk (hp.trans h)
        simp [counterGet, List.find?_cons, hpk, this]
    · simp only [counterIncr, if_neg hp]
      by_cases hpk : p.1 = k
      · have : ¬(k' = k) := fun h => hp (hpk.trans h.symm)
        simp [counterGet, List.find?_cons, hpk, this]
      · simp only [counterGet, List.find?_cons]
        have hb : (p.1 == k) = false := by simp [hpk]
        rw [hb]
        exact ih k' k

theorem counterGet_fold (names : List (List Char)) :
    ∀ (c0 : List (List Char × Nat)) (k : List Char),
      counterGet (names.foldl (fun c n => counterIncr c (pyCasefold n)) c0) k =
        counterGet c0 k + names.countP (fun n => pyCasefold n == k) := by
  induction names with
  | nil => intro c0 k; simp
  | cons n rest ih =>
    intro c0 k
    rw [List.foldl_cons, ih, counterGet_incr]
    rw [List.countP_cons]
    by_cases h : pyCasefold n = k
    · simp [h]
      omega
    · simp [h]

theorem seenFold_prefix (key : List Char → List Char) :
    ∀ (names : List (List Char)) (s : List (List Char × List Char)),
      ∃ t, names.foldl (seenInsert key) s = s ++ t := by
  intro names
  induction names with
  | nil => intro s; exact ⟨[], by simp⟩
  | cons n rest ih =>
    intro s
    rw [List.foldl_cons]
    by_cases h : s.any (fun p => p.1 == key n) = true
    · simpa [seenInsert, h] using ih s
    · obtain ⟨t, ht⟩ := ih (s ++ [(key n, n)])
      refine ⟨(key n, n) :: t, ?_⟩
      simp only [seenInsert, h, if_false, Bool.false_eq_true] at *
      rw [ht, List.append_assoc]
      rfl

theorem seenFold_inv (key : List Char → List Char) :
    ∀ (names : List (List Char)) (s : List (List Char × List Char)),
      (∀ p ∈ s, p.1 = key p.2) →
      ∀ p ∈ names.foldl (seenInsert key) s, p.1 = key p.2 := by
  intro names
  induction names with
  | nil => intro s hs; exact hs
  | cons n rest ih =>
    intro s hs
    rw [List.foldl_cons]
    apply ih
    intro p hp
    by_cases h : s.any (fun q => q.1 == key n) = true
    · rw [seenInsert, if_pos h] at hp
      exact hs p hp
    · rw [seenInsert, if_neg h] at hp
      rcases List.mem_append.mp hp with h' | h'
      · exact hs p h'
      · simp only [List.mem_singleton] at h'
        subst h'
        rfl

theorem seenFold_src (key : List Char → List Char) :
    ∀ (names : List (List Char)) (s : List (List Char × List Char)),
      ∀ p ∈ names.foldl (seenInsert key) s, p ∈ s ∨ p.2 ∈ names := by
  intro names
  induction names with
  | nil => intro s p hp; exact Or.inl hp
  | cons n rest ih =>
    intro s p hp
    rw [List.foldl_cons] at hp
    rcases ih (seenInsert key s n) p hp with h' | h'
    · by_cases h : s.any (fun q => q.1 == key n) = true
      · rw [seenInsert, if_pos h] at h'
        exact Or.inl h'
      · rw [seenInsert, if_neg h] at h'
        rcases List.mem_append.mp h' with h'' | h''
        · exact Or.inl h''
        · simp only [List.mem_singleton] at h''
          subst h''
          exact Or.inr (by simp)
    · exact Or.inr (by simp [h'])

theorem seenFold_nodup (key : List Char → List Char) :
    ∀ (names : List (List Char)) (s : List (List Char × List Char)),
      (s.map (·.1)).Nodup →
      ((names.foldl (seenInsert key) s).map (·.1)).Nodup := by
  intro names
  induction names with
  | nil => intro s hs; exact hs
  | cons n rest ih =>
    intro s hs
    rw [List.foldl_cons]
    apply ih
    by_cases h : s.any (fun q => q.1 == key n) = true
    · rwa [seenInsert, if_pos h]
    · rw [seenInsert, if_neg h]
      rw [List.map_append, List.nodup_append]
      refine ⟨hs, by simp, ?_⟩
      intro a ha hb
      simp only [List.map_cons, List.map_nil, List.mem_singleton] at hb
      subst hb
      apply h
      rw [List.any_eq_true]
      rcases List.mem_map.mp ha with ⟨p, hp, hpk⟩
      exact ⟨p, hp, by simp [hpk]⟩

theorem assoc_unique : ∀ (s : List (List Char × List Char)),
    (s.map (·.1)).Nodup →
    ∀ p q, p ∈ s → q ∈ s → p.1 = q.1 → p = q := by
  intro s
  induction s with
  | nil => intro _ p q hp; simp at hp
  | cons a t ih =>
    intro hnd p q hp hq hpq
    rw [List.map_cons, List.nodup_cons] at hnd
    rcases List.mem_cons.mp hp with rfl | hp' <;>
      rcases List.mem_cons.mp hq with h2 | hq'
    · rw [h2]
    · exfalso
      exact hnd.1 (hpq ▸ List.mem_map.mpr ⟨q, hq', rfl⟩)
    · exfalso
      subst h2
      exact hnd.1 (hpq ▸ List.mem_map.mpr ⟨p, hp', rfl⟩)
    · exact ih hnd.2 p q hp' hq' hpq

theorem seenFold_split (key : List Char → List Char) (names : List (List Char))
    (s : List (List Char × List Char)) (ka kb : List Char)
    (ha : ∃ p ∈ s, p.1 = ka) (hb : ∀ p ∈ s, ¬(p.1 = kb)) :
    (names.foldl (seenInsert key) s).findIdx (fun p => p.1 == ka) <
    (names.foldl (seenInsert key) s).findIdx (fun p => p.1 == kb) := by
  obtain ⟨t, ht⟩ := seenFold_prefix key names s
  rw [ht, List.findIdx_append, List.findIdx_append]
  have hlt : s.findIdx (fun p => p.1 == ka) < s.length := by
    rw [List.findIdx_lt_length]
    obtain ⟨p, hp, hpk⟩ := ha
    exact ⟨p, hp, by simp [hpk]⟩
  rw [if_pos hlt]
  have hnb : ¬ (s.findIdx (fun p => p.1 == kb) < s.length) := by
    intro hcon
    obtain ⟨p, hp, hpk⟩ := List.findIdx_lt_length.mp hcon
    exact hb p hp (by simpa using hpk)
  rw [if_neg hnb]
  omega

theorem seenInsert_keeps (key : List Char → List Char)
    (s : List (List Char × List Char)) (n : List Char) (k : List Char)
    (hs : ∀ p ∈ s, ¬(p.1 = k)) (hn : ¬(key n = k)) :
    ∀ p ∈ seenInsert key s n, ¬(p.1 = k) := by
  intro p hp
  by_cases h : s.any (fun q => q.1 == key n) = true
  · rw [seenInsert, if_pos h] at hp
    exact hs p hp
  · rw [seenInsert, if_neg h] at hp
    rcases List.mem_append.mp hp with h' | h'
    · exact hs p h'
    · simp only [List.mem_singleton] at h'
      subst h'
      exact hn

theorem seenFold_order (key : List Char → List Char) :
    ∀ (names : List (List Char)) (s : List (List Char × List Char))
      (ka kb : List Char),
      (∀ p ∈ s, ¬(p.1 = ka)) → (∀ p ∈ s, ¬(p.1 = kb)) →
      (∃ n ∈ names, key n = ka) →
      names.findIdx (fun n => key n == ka) < names.findIdx (fun n => key n == kb) →
      (names.foldl (seenInsert key) s).findIdx (fun p => p.1 == ka) <
      (names.foldl (seenInsert key) s).findIdx (fun p => p.1 == kb) := by
  intro names
  induction names with
  | nil =>
    rintro s ka kb _ _ ⟨n, hn, _⟩ _
    simp at hn
  | cons n rest ih =>
    intro s ka kb hka hkb hex hidx
    by_cases h1 : key n = ka
    · have hkbn : ¬(key n = kb) := by
        intro h2
        rw [List.findIdx_cons, List.findIdx_cons] at hidx
        have e1 : (key n == ka) = true := by simp [h1]
        have e2 : (key n == kb) = true := by simp [h2]
        rw [e1, e2] at hidx
        simp at hidx
      have hins : seenInsert key s n = s ++ [(key n, n)] := by
        rw [seenInsert, if_neg]
        intro h
        obtain ⟨p, hp, hpk⟩ := List.any_eq_true.mp h
        exact hka p hp (by simpa [h1] using hpk)
      rw [List.foldl_cons, hins]
      apply seenFold_split
      · exact ⟨(key n, n), by simp, h1⟩
      · intro p hp
        rcases List.mem_append.mp hp with h' | h'
        · exact hkb p h'
        · simp only [List.mem_singleton] at h'
          subst h'
          exact hkbn
    · by_cases h2 : key n = kb
      · exfalso
        rw [List.findIdx_cons, List.findIdx_cons] at hidx
        have e1 : (key n == ka) = false := by simp [h1]
        have e2 : (key n == kb) = true := by simp [h2]
        rw [e1, e2] at hidx
        simp at hidx
      · rw [List.findIdx_cons, List.findIdx_cons] at hidx
        have e1 : (key n == ka) = false := by simp [h1]
        have e2 : (key n == kb) = false := by simp [h2]
        rw [e1, e2] at hidx
        simp only [cond_false] at hidx
        rw [List.foldl_cons]
        apply ih (seenInsert key s n) ka kb
          (seenInsert_keeps key s n ka hka h1)
          (seenInsert_keeps key s n kb hkb h2)
        · obtain ⟨m, hm, hmk⟩ := hex
          rcases List.mem_cons.mp hm with rfl | hm'
          · exact absurd hmk h1
          · exact ⟨m, hm', hmk⟩
        · omega

/-- Number of entries of the cleaned token sequence whose case-folded form is
the key `k` (the final value of `counts[k]` in `dedupe_preserve_first`). -/
def keyCount (names : List (List Char)) (k : List Char) : Nat :=
  names.countP (fun n => pyCasefold n == k)

theorem dedupeFold_fst0 (names : List (List Char)) :
    (names.foldl dedupeStep ([], [])).1 = names.foldl (seenInsert pyCasefold) [] :=
  dedupeFold_fst names ([], [])

theorem dedupeFold_snd0 (names : List (List Char)) :
    (names.foldl dedupeStep ([], [])).2 =
      names.foldl (fun c n => counterIncr c (pyCasefold n)) [] :=
  dedupeFold_snd names ([], [])

theorem dedupe_dup_mem (names : List (List Char)) :
    ∀ p ∈ (dedupe_preserve_first names).2,
      p.1 ∈ (dedupe_preserve_first names).1 ∧ 1 ≤ p.2 ∧
      p.2 + 1 = keyCount names (pyCasefold p.1) := by
  intro p hp
  simp only [dedupe_preserve_first] at hp ⊢
  obtain ⟨q, hq, hqe⟩ := List.mem_filterMap.mp hp
  by_cases hc : 2 ≤ counterGet (names.foldl dedupeStep ([], [])).2 q.1
  · rw [if_pos hc] at hqe
    have hpq : p = (q.2, counterGet (names.foldl dedupeStep ([], [])).2 q.1 - 1) := by
      exact (Option.some.injEq _ _).mp hqe |>.symm
    have hkey : q.1 = pyCasefold q.2 :=
      seenFold_inv pyCasefold names [] (by intro p hp; simp at hp) q
        (dedupeFold_fst0 names ▸ hq)
    have hcount : counterGet (names.foldl dedupeStep ([], [])).2 q.1 =
        keyCount names q.1 := by
      rw [dedupeFold_snd0, counterGet_fold]
      simp [counterGet, keyCount]
    subst hpq
    refine ⟨List.mem_map.mpr ⟨q, hq, rfl⟩, by omega, ?_⟩
    show counterGet (names.foldl dedupeStep ([], [])).2 q.1 - 1 + 1 =
      keyCount names (pyCasefold q.2)
    rw [← hkey, hcount]
    omega
  · rw [if_neg hc] at hqe
    exact absurd hqe (by simp)

theorem dedupe_dup_complete (names : List (List Char)) :
    ∀ x ∈ (dedupe_preserve_first names).1,
      2 ≤ keyCount names (pyCasefold x) →
      ∃ c, (x, c) ∈ (dedupe_preserve_first names).2 := by
  intro x hx hcnt
  simp only [dedupe_preserve_first] at hx ⊢
  obtain ⟨q, hq, hqx⟩ := List.mem_map.mp hx
  have hkey : q.1 = pyCasefold q.2 :=
    seenFold_inv pyCasefold names [] (by intro p hp; simp at hp) q
      (dedupeFold_fst0 names ▸ hq)
  have hcount : counterGet (names.foldl dedupeStep ([], [])).2 q.1 =
      keyCount names q.1 := by
    rw [dedupeFold_snd0, counterGet_fold]
    simp [counterGet, keyCount]
  have hc : 2 ≤ counterGet (names.foldl dedupeStep ([], [])).2 q.1 := by
    rw [hcount, hkey, hqx]
    exact hcnt
  refine ⟨counterGet (names.foldl dedupeStep ([], [])).2 q.1 - 1, ?_⟩
  apply List.mem_filterMap.mpr
  exact ⟨q, hq, by rw [if_pos hc, hqx]⟩

theorem dedupe_unique_pairwise (names : List (List Char)) :
    ((dedupe_preserve_first names).1).Pairwise
      (fun a b => ¬(pyCasefold a = pyCasefold b)) := by
  simp only [dedupe_preserve_first]
  rw [dedupeFold_fst0]
  have hnd := seenFold_nodup pyCasefold names [] (by simp)
  have hinv := seenFold_inv pyCasefold names [] (by intro p hp; simp at hp)
  rw [List.Nodup, List.pairwise_map] at hnd
  rw [List.pairwise_map]
  apply hnd.imp_of_mem
  intro p q hp hq hne
  rw [← hinv p hp, ← hinv q hq]
  exact hne

theorem dedupe_unique_src (names : List (List Char)) :
    ∀ x ∈ (dedupe_preserve_first names).1, x ∈ names := by
  intro x hx
  simp only [dedupe_preserve_first] at hx
  rw [dedupeFold_fst0] at hx
  obtain ⟨q, hq, hqx⟩ := List.mem_map.mp hx
  rcases seenFold_src pyCasefold names [] q hq with h | h
  · simp at h
  · rw [← hqx]; exact h

/-! ### Claims C1, C2, C3. -/

/-- C1: `extract` is a total function on strings (totality is by
construction in this embedding: `extract` is a Lean function defined for
every input, so no exception is possible); it returns a well-formed
`ExtractionResult` — every duplicate-map key appears in the unique list with
a positive count — and for the empty string, and for any text on which the
tokenizer-plus-cleaner produces no names, both the unique list and the
duplicate map are empty. -/
theorem claim_C1 :
    extract "" = ([], []) ∧
    (∀ s : String, ∀ p ∈ (extract s).2, p.1 ∈ (extract s).1 ∧ 1 ≤ p.2) ∧
    (∀ s : String, extract_names_in_order s.data = [] → extract s = ([], [])) := by
  refine ⟨by decide, ?_, ?_⟩
  · intro s p hp
    simp only [extract] at hp ⊢
    obtain ⟨q, hq, hqe⟩ := List.mem_map.mp hp
    have h := dedupe_dup_mem (extract_names_in_order s.data) q hq
    subst hqe
    exact ⟨List.mem_map.mpr ⟨q.1, h.1, rfl⟩, h.2.1⟩
  · intro s h
    simp only [extract, h]
    rfl

/-- Witness for C1 at a concrete no-match input. -/
theorem claim_C1_witness : extract "!!!" = ([], []) :=
  claim_C1.2.2 "!!!" (by decide)

/-- C2: for every input, the unique list returned by `extract` contains no
two entries whose case-folded forms are equal. -/
theorem claim_C2 (s : String) :
    ((extract s).1).Pairwise (fun a b => ¬(pyCasefold a.data = pyCasefold b.data)) := by
  simp only [extract]
  rw [List.pairwise_map]
  exact dedupe_unique_pairwise _

/-- C3: the duplicate map of `extract` holds exactly the names whose
case-insensitive occurrence count in the cleaned token sequence exceeds one,
each valued at that count minus one; every key also appears in the unique
list and every value is positive. -/
theorem claim_C3 (s : String) :
    (∀ p ∈ (extract s).2,
        p.1 ∈ (extract s).1 ∧ 1 ≤ p.2 ∧
        p.2 + 1 = keyCount (extract_names_in_order s.data) (pyCasefold p.1.data)) ∧
    (∀ x ∈ (extract s).1,
        2 ≤ keyCount (extract_names_in_order s.data) (pyCasefold x.data) →
        ∃ c, (x, c) ∈ (extract s).2) := by
  constructor
  · intro p hp
    simp only [extract] at hp ⊢
    obtain ⟨q, hq, hqe⟩ := List.mem_map.mp hp
    have h := dedupe_dup_mem (extract_names_in_order s.data) q hq
    subst hqe
    exact ⟨List.mem_map.mpr ⟨q.1, h.1, rfl⟩, h.2.1, h.2.2⟩
  · intro x hx hcnt
    simp only [extract] at hx ⊢
    obtain ⟨v, hv, hvx⟩ := List.mem_map.mp hx
    subst hvx
    obtain ⟨c, hc⟩ := dedupe_dup_complete (extract_names_in_order s.data) v hv hcnt
    exact ⟨c, List.mem_map.mpr ⟨(v, c), hc, rfl⟩⟩

/-- Witness for C3 at a concrete input with one duplicate. -/
theorem claim_C3_witness :
    "Pikachu" ∈ (extract "✨ Pikachu: male").1 ∧ 1 ≤ (1 : Nat) ∧
    (1 : Nat) + 1 = keyCount (extract_names_in_order "✨ Pikachu: male".data)
      (pyCasefold "Pikachu".data) :=
  (claim_C3 "✨ Pikachu: male").1 ("Pikachu", 1) (by decide)

/-! ### Claims C7 and C8: the concrete scenarios. -/

/-- C7 counterexample: on `"✨ Pikachu: male"` the duplicate map is not
empty, because the sparkle rule and the gender-tag rule both match the same
span and the deduplicator counts the second cleaned token as a duplicate. -/
theorem claim_C7_counterexample :
    extract "✨ Pikachu: male" ≠ (["Pikachu"], []) := by decide

/-- C7 amended: `extract "✨ Pikachu: male"` returns the unique list
`["Pikachu"]` and the duplicate map `{"Pikachu": 1}` (the same span is
matched by both the sparkle and the gender-tag rule, and the deduplicator
records the extra occurrence). -/
theorem claim_C7 :
    extract "✨ Pikachu: male" = (["Pikachu"], [("Pikachu", 1)]) := by decide

/-- C8 counterexample: on the two-line regional-form input the duplicate
map is not empty. -/
theorem claim_C8_counterexample :
    extract "✨ Galarian Corsola: male\n✨ Corsola: male" ≠
      (["Galarian Corsola", "Corsola"], []) := by decide

/-- C8 amended: the unique list is `["Galarian Corsola", "Corsola"]` exactly
as claimed (the prefixed form is never merged with the base form), but the
duplicate map is `{"Galarian Corsola": 1, "Corsola": 1}` because each line
is matched by both the sparkle and the gender-tag rule. -/
theorem claim_C8 :
    extract "✨ Galarian Corsola: male\n✨ Corsola: male" =
      (["Galarian Corsola", "Corsola"],
       [("Galarian Corsola", 1), ("Corsola", 1)]) := by decide

/-! ### Claim C5: idempotence of the cleaner. -/

/-- Head of the string is a letter (so the leading `[\d\W_]+` strip of
`clean_name_token` does nothing). -/
def headLetter : List Char → Bool
  | [] => true
  | c :: _ => isPyLetter c

/-- A string on which every stage of `clean_name_token` is the identity:
no full-width space, already stripped, leading character a letter, no quote
character, no opening parenthesis, no dash/slash separator occurrence, no
trailing-note match, no stray trailing punctuation, and whitespace already
collapsed. -/
def cleanInert (cs : List Char) : Bool :=
  !cs.contains fwSpace && (pyStrip cs == cs) && headLetter cs &&
  quoteCharsL.all (fun q => !cs.contains q) &&
  !cs.contains (Char.ofNat 40) &&
  sepStrs.all (fun sep => (firstOccurIdx sep cs).isNone) &&
  (trailingSub cs == cs) && (pyRstripPunct cs == cs) && (collapseWS cs == cs)

theorem map_fw_id : ∀ (cs : List Char), fwSpace ∉ cs →
    cs.map (fun c => if c == fwSpace then ' ' else c) = cs := by
  intro cs
  induction cs with
  | nil => intro _; rfl
  | cons c rest ih =>
    intro h
    have hc : (c == fwSpace) = false := by
      simp only [beq_eq_false_iff_ne, ne_eq]
      intro hh
      exact h (by simp [hh])
    rw [List.map_cons]
    have hhd : (if c == fwSpace then ' ' else c) = c := by simp [hc]
    rw [hhd, ih (fun hm => h (by simp [hm]))]

theorem dropWhile_eq_self_of_head {p : Char → Bool} {cs : List Char}
    (h : ∀ c, cs.head? = some c → p c = false) : cs.dropWhile p = cs := by
  cases cs with
  | nil => rfl
  | cons c rest =>
    rw [List.dropWhile_cons, h c rfl]
    simp

theorem clean_fixed (cs : List Char) (h : cleanInert cs = true) :
    clean_name_token cs = cs := by
  by_cases hnil : cs = []
  · subst hnil; rfl
  · simp only [cleanInert, Bool.and_eq_true] at h
    obtain ⟨⟨⟨⟨⟨⟨⟨⟨h1, h2⟩, h3⟩, h4⟩, h5⟩, h6⟩, h7⟩, h8⟩, h9⟩ := h
    have hfw : fwSpace ∉ cs := by simpa using h1
    have hps : pyStrip cs = cs := by simpa using h2
    have hdw : cs.dropWhile (fun c => !isPyLetter c) = cs := by
      apply dropWhile_eq_self_of_head
      intro c hc
      cases cs with
      | nil => simp at hc
      | cons a t =>
        simp only [List.head?_cons, Option.some.injEq] at hc
        subst hc
        simp only [headLetter] at h3
        simp [h3]
    have e3 : quoteCharsL.foldl (fun s q => cutAtChar q s) cs = cs := by
      apply foldl_fixed
      intro q hq
      rw [List.all_eq_true] at h4
      have hq' : q ∉ cs := by simpa using h4 q hq
      rw [cutAtChar, if_neg]
      simpa using hq'
    have e4 : cutAtChar (Char.ofNat 40) cs = cs := by
      have hq' : Char.ofNat 40 ∉ cs := by simpa using h5
      rw [cutAtChar, if_neg]
      simpa using hq'
    have e5 : sepStrs.foldl (fun s sep => cutAtSeq sep s) cs = cs := by
      apply foldl_fixed
      intro sep hsep
      rw [List.all_eq_true] at h6
      have := h6 sep hsep
      rw [Option.isNone_iff_eq_none] at this
      simp [cutAtSeq, this]
    have htr : trailingSub cs = cs := by simpa using h7
    have e7 : pyRstripPunct cs = cs := by simpa using h8
    have hcol : collapseWS cs = cs := by simpa using h9
    have hne : ¬(cs.isEmpty = true) := by simp [hnil]
    unfold clean_name_token
    rw [if_neg hne]
    simp only [map_fw_id cs hfw, hdw, hps, e3, e4, e5, htr, e7, hcol]

/-- C5 counterexample: cleaning is not idempotent.  On `"ab· ·"` the cleaner
strips only the last stray dot (the run is interrupted by the space, which
the final whitespace pass then removes), so the cleaned form `"ab·"` ends in
a stray dot and a second cleaning pass strips it to `"ab"`. -/
theorem claim_C5_counterexample :
    clean_name_token (clean_name_token "ab· ·".data) ≠
      clean_name_token "ab· ·".data := by decide

/-- C5 amended: re-cleaning a cleaned name yields the identical string
provided that cleaned name re-triggers no cleaning rule — it starts with a
letter, is stripped and whitespace-collapsed, and contains no quote,
parenthesis, separator, trailing-note match, full-width space or stray
trailing punctuation.  In general a second pass can strip further
(see the counterexample). -/
theorem claim_C5 (s : List Char)
    (h : cleanInert (clean_name_token s) = true) :
    clean_name_token (clean_name_token s) = clean_name_token s :=
  clean_fixed (clean_name_token s) h

/-- Witness for C5 at a concrete input. -/
theorem claim_C5_witness :
    clean_name_token (clean_name_token "✨ Pikachu".data) =
      clean_name_token "✨ Pikachu".data :=
  claim_C5 "✨ Pikachu".data (by decide)

/-! ### Claim C6: the rejection list. -/

/-- C6 counterexample: the `src/index.py` pipeline applies no rejection
filtering at all, so the rejection-listed word `lvl` appears in the unique
list of `extract "lvl: male"`. -/
theorem claim_C6_counterexample :
    "lvl" ∈ (extract "lvl: male").1 ∧ "lvl".data ∈ rejectWords := by decide

theorem appFallback_src :
    ∀ (gs : List (List Char)) (st : List (List Char) × List (List Char)),
      ∀ n ∈ (gs.foldl appFallbackStep st).1,
        n ∈ st.1 ∨ ¬(pyLower n ∈ rejectWords) := by
  intro gs
  induction gs with
  | nil => intro st n hn; exact Or.inl hn
  | cons g rest ih =>
    intro st n hn
    rw [List.foldl_cons] at hn
    rcases ih (appFallbackStep st g) n hn with h | h
    · simp only [appFallbackStep] at h
      by_cases h1 : (pyStrip g).isEmpty = true
      · rw [if_pos h1] at h
        exact Or.inl h
      · rw [if_neg h1] at h
        by_cases h2 : st.2.contains (pyLower (pyStrip g)) = true
        · rw [if_pos h2] at h
          exact Or.inl h
        · rw [if_neg h2] at h
          by_cases h3 : rejectWords.contains (pyLower (pyStrip g)) = true
          · rw [if_pos h3] at h
            exact Or.inl h
          · rw [if_neg h3] at h
            rcases List.mem_append.mp h with h' | h'
            · exact Or.inl h'
            · simp only [List.mem_singleton] at h'
              subst h'
              exact Or.inr (by simpa using h3)
    · exact Or.inr h

/-- C6 amended: only the fallback (gender-tag) pass of `extract_names` in
`src/api/app.py` applies the rejection set, so a rejection-listed word can
reach the unique list only through a sparkle-rule match; the
`src/index.py` pipeline applies no rejection filtering at all (see the
counterexample). -/
theorem claim_C6 (text : List Char) (n : List Char)
    (hn : n ∈ (extract_names text).1) (hr : pyLower n ∈ rejectWords) :
    n ∈ app_sparkle_names text := by
  simp only [extract_names] at hn
  obtain ⟨q, hq, hqn⟩ := List.mem_map.mp hn
  have hsrc := seenFold_src pyLower (app_names text) [] q hq
  rcases hsrc with h | h
  · simp at h
  · rw [hqn] at h
    simp only [app_names] at h
    rcases appFallback_src _ _ n h with h' | h'
    · exact h'
    · exact absurd hr h'

/-- Witness for C6: on `"✨ lvl:"` the rejection-listed `lvl` is in the
unique list, and indeed came from the sparkle pass. -/
theorem claim_C6_witness : "lvl".data ∈ app_sparkle_names "✨ lvl:".data :=
  claim_C6 "✨ lvl:".data "lvl".data (by decide) (by decide)

/-! ### Claim C10: shape of cleaned tokens. -/

/-- Two consecutive space characters occur somewhere in the string. -/
def hasDoubleSpace : List Char → Bool
  | c :: d :: rest => (c == ' ' && d == ' ') || hasDoubleSpace (d :: rest)
  | _ => false

/-- Neither the first nor the last character is whitespace. -/
def noEdgeWS (cs : List Char) : Bool :=
  (match cs.head? with | some c => !isPySpace c | none => true) &&
  (match cs.getLast? with | some c => !isPySpace c | none => true)

theorem dropTrailingBy_prefix (p : Char → Bool) :
    ∀ l : List Char, dropTrailingBy p l <+: l := by
  intro l
  induction l with
  | nil => exact List.prefix_refl _
  | cons c rest ih =>
    rw [dropTrailingBy]
    cases hd : dropTrailingBy p rest with
    | nil =>
      by_cases hp : p c = true
      · rw [if_pos hp]; exact List.nil_prefix
      · rw [if_neg hp]
        exact ⟨rest, rfl⟩
    | cons d t =>
      show c :: (d :: t) <+: c :: rest
      rw [← hd]
      exact (List.prefix_cons_inj c).mpr ih

theorem dropTrailingBy_getLast (p : Char → Bool) :
    ∀ (l : List Char) (c : Char),
      (dropTrailingBy p l).getLast? = some c → p c = false := by
  intro l
  induction l with
  | nil => intro c hc; simp [dropTrailingBy] at hc
  | cons a rest ih =>
    intro c hc
    rw [dropTrailingBy] at hc
    cases hd : dropTrailingBy p rest with
    | nil =>
      rw [hd] at hc
      by_cases hp : p a = true
      · rw [if_pos hp] at hc; simp at hc
      · rw [if_neg hp] at hc
        simp only [List.getLast?_singleton, Option.some.injEq] at hc
        subst hc
        simpa using hp
    | cons d t =>
      rw [hd] at hc
      rw [List.getLast?_cons_cons] at hc
      exact ih c (hd ▸ hc)

theorem dropWhile_head_not (p : Char → Bool) :
    ∀ (l : List Char) (c : Char),
      (l.dropWhile p).head? = some c → p c = false := by
  intro l
  induction l with
  | nil => intro c hc; simp at hc
  | cons a rest ih =>
    intro c hc
    rw [List.dropWhile_cons] at hc
    by_cases hp : p a = true
    · rw [if_pos hp] at hc
      exact ih c hc
    · rw [if_neg hp] at hc
      simp only [List.head?_cons, Option.some.injEq] at hc
      subst hc
      simpa using hp

theorem hasDoubleSpace_tail (c : Char) (l : List Char)
    (h : hasDoubleSpace (c :: l) = false) : hasDoubleSpace l = false := by
  cases l with
  | nil => rfl
  | cons d t =>
    rw [hasDoubleSpace] at h
    simpa using (Bool.or_eq_false_iff.mp h).2

theorem hasDoubleSpace_dropWhile (p : Char → Bool) :
    ∀ l : List Char, hasDoubleSpace l = false →
      hasDoubleSpace (l.dropWhile p) = false := by
  intro l
  induction l with
  | nil => intro _; rfl
  | cons c rest ih =>
    intro h
    rw [List.dropWhile_cons]
    by_cases hp : p c = true
    · rw [if_pos hp]
      exact ih (hasDoubleSpace_tail c rest h)
    · rw [if_neg hp]
      exact h

theorem hasDoubleSpace_dropTrailing (p : Char → Bool) :
    ∀ l : List Char, hasDoubleSpace l = false →
      hasDoubleSpace (dropTrailingBy p l) = false := by
  intro l
  induction l with
  | nil => intro _; rfl
  | cons c rest ih =>
    intro h
    rw [dropTrailingBy]
    cases hd : dropTrailingBy p rest with
    | nil =>
      by_cases hp : p c = true
      · rw [if_pos hp]; rfl
      · rw [if_neg hp]; rfl
    | cons d t =>
      have hpre := dropTrailingBy_prefix p rest
      rw [hd] at hpre
      obtain ⟨u, hu⟩ := hpre
      have hrest : rest = d :: (t ++ u) := by rw [← hu]; rfl
      have h1 : hasDoubleSpace (dropTrailingBy p rest) = false :=
        ih (hasDoubleSpace_tail c rest h)
      rw [hd] at h1
      rw [hasDoubleSpace]
      apply Bool.or_eq_false_iff.mpr
      refine ⟨?_, h1⟩
      rw [hrest, hasDoubleSpace] at h
      exact (Bool.or_eq_false_iff.mp h).1

theorem collapseWS_noDouble : ∀ l : List Char,
    hasDoubleSpace (collapseWS l) = false := by
  intro l
  induction l with
  | nil => rfl
  | cons c rest ih =>
    rw [collapseWS]
    by_cases hc : isPySpace c = true
    · rw [if_pos hc]
      cases hacc : collapseWS rest with
      | nil => rfl
      | cons d t =>
        show hasDoubleSpace (if (d == ' ') = true then d :: t else ' ' :: d :: t) = false
        by_cases hd : (d == ' ') = true
        · rw [if_pos hd]
          rw [← hacc]
          exact ih
        · rw [if_neg hd]
          rw [Bool.not_eq_true] at hd
          rw [hasDoubleSpace]
          apply Bool.or_eq_false_iff.mpr
          constructor
          · simp [hd]
          · rw [← hacc]; exact ih
    · rw [if_neg hc]
      cases hacc : collapseWS rest with
      | nil => rfl
      | cons d t =>
        rw [hasDoubleSpace]
        apply Bool.or_eq_false_iff.mpr
        constructor
        · have : (c == ' ') = false := by
            rw [beq_eq_false_iff_ne]
            intro hh
            subst hh
            exact hc (by decide)
          simp [this]
        · rw [← hacc]; exact ih

theorem pyStrip_noEdgeWS (y : List Char) : noEdgeWS (pyStrip y) = true := by
  rw [noEdgeWS, Bool.and_eq_true]
  constructor
  · cases hh : (pyStrip y).head? with
    | none => rfl
    | some c =>
      have hpre := dropTrailingBy_prefix isPySpace (y.dropWhile isPySpace)
      obtain ⟨u, hu⟩ := hpre
      have : (y.dropWhile isPySpace).head? = some c := by
        rw [← hu, List.head?_append]
        rw [pyStrip] at hh
        rw [hh]
        rfl
      have := dropWhile_head_not isPySpace y c this
      simp [this]
  · cases hh : (pyStrip y).getLast? with
    | none => rfl
    | some c =>
      have := dropTrailingBy_getLast isPySpace (y.dropWhile isPySpace) c hh
      simp [this]

theorem pyStrip_collapse_props (x : List Char) :
    noEdgeWS (pyStrip (collapseWS x)) = true ∧
    hasDoubleSpace (pyStrip (collapseWS x)) = false := by
  refine ⟨pyStrip_noEdgeWS _, ?_⟩
  rw [pyStrip]
  exact hasDoubleSpace_dropTrailing _ _
    (hasDoubleSpace_dropWhile _ _ (collapseWS_noDouble x))

theorem clean_name_token_shape (raw : List Char) :
    clean_name_token raw = [] ∨
    ∃ x, clean_name_token raw = pyStrip (collapseWS x) := by
  by_cases h : raw.isEmpty = true
  · left
    unfold clean_name_token
    rw [if_pos h]
  · right
    unfold clean_name_token
    rw [if_neg h]
    exact ⟨_, rfl⟩

theorem clean_props (raw : List Char) :
    clean_name_token raw = [] ∨
    (noEdgeWS (clean_name_token raw) = true ∧
     hasDoubleSpace (clean_name_token raw) = false) := by
  rcases clean_name_token_shape raw with h | ⟨x, h⟩
  · exact Or.inl h
  · right
    rw [h]
    exact pyStrip_collapse_props x

theorem extract_names_mem (s : List Char) :
    ∀ n ∈ extract_names_in_order s,
      n ≠ [] ∧ noEdgeWS n = true ∧ hasDoubleSpace n = false := by
  intro n hn
  rw [extract_names_in_order] at hn
  by_cases he : s.isEmpty = true
  · rw [if_pos he] at hn
    simp at hn
  · rw [if_neg he] at hn
    obtain ⟨e, he2, hen⟩ := List.mem_map.mp hn
    have hmem : e ∈ cleanedMatches s :=
      (List.perm_insertionSort posLe _).mem_iff.mp he2
    obtain ⟨pg, hpg, heq⟩ := List.mem_filterMap.mp hmem
    by_cases hc : (clean_name_token (pyStrip pg.2)).isEmpty = true
    · rw [if_pos hc] at heq
      simp at heq
    · rw [if_neg hc] at heq
      have he3 : (pg.1, clean_name_token (pyStrip pg.2)) = e :=
        (Option.some.injEq _ _).mp heq
      have hne : n = clean_name_token (pyStrip pg.2) := by
        rw [← hen, ← he3]
      have hnonempty : n ≠ [] := by
        rw [hne]
        intro hcon
        rw [hcon] at hc
        exact hc rfl
      refine ⟨hnonempty, ?_⟩
      rcases clean_props (pyStrip pg.2) with h | h
      · rw [hne] at hnonempty
        exact absurd h hnonempty
      · rw [hne]
        exact h

/-- C10: every element of the cleaned token sequence of
`extract_names_in_order` is a non-empty string with no leading or trailing
whitespace and no run of two consecutive spaces; tokens cleaning to the
empty string are dropped before deduplication, so the empty string appears
neither in the unique list nor among the duplicate-map keys. -/
theorem claim_C10 (s : String) :
    (∀ n ∈ extract_names_in_order s.data,
        n ≠ [] ∧ noEdgeWS n = true ∧ hasDoubleSpace n = false) ∧
    (∀ x ∈ (extract s).1, x ≠ "") ∧
    (∀ p ∈ (extract s).2, p.1 ≠ "") := by
  refine ⟨extract_names_mem s.data, ?_, ?_⟩
  · intro x hx
    simp only [extract] at hx
    obtain ⟨v, hv, hvx⟩ := List.mem_map.mp hx
    have hvn : v ∈ extract_names_in_order s.data :=
      dedupe_unique_src (extract_names_in_order s.data) v hv
    have hne := (extract_names_mem s.data v hvn).1
    intro hcon
    rw [← hvx] at hcon
    exact hne (congrArg String.data hcon)
  · intro p hp
    simp only [extract] at hp
    obtain ⟨q, hq, hqp⟩ := List.mem_map.mp hp
    have h1 := (dedupe_dup_mem (extract_names_in_order s.data) q hq).1
    have hqn : q.1 ∈ extract_names_in_order s.data :=
      dedupe_unique_src (extract_names_in_order s.data) q.1 h1
    have hne := (extract_names_mem s.data q.1 hqn).1
    intro hcon
    rw [← hqp] at hcon
    exact hne (congrArg String.data hcon)

/-- Witness for C10 at a concrete input. -/
theorem claim_C10_witness :
    "Pikachu".data ≠ [] ∧ noEdgeWS "Pikachu".data = true ∧
    hasDoubleSpace "Pikachu".data = false :=
  (claim_C10 "✨ Pikachu: male").1 "Pikachu".data (by decide)

/-! ### Claim C9: the gender-tag rule. -/

theorem genderTry_keyword (n : List Char)
    (hcl : ∀ c ∈ n, genderNameChar c = true) (h2 : 2 ≤ n.length)
    (h120 : n.length ≤ 120) :
    genderTry (n ++ (':' :: ' ' :: "male".data)) none =
      some (n, n.length + 6, some 'e') := by
  have hcolon : genderNameChar ':' = false := by decide
  have hrun : (n ++ (':' :: ' ' :: "male".data)).takeWhile genderNameChar = n := by
    rw [takeWhile_append_all hcl, List.takeWhile_cons, hcolon]
    simp
  have hdrop : (n ++ (':' :: ' ' :: "male".data)).drop n.length =
      ':' :: ' ' :: "male".data := List.drop_left _ _
  have hdrop1 : (n ++ (':' :: ' ' :: "male".data)).drop (n.length + 1) =
      ' ' :: "male".data := by
    have hsplit : n ++ (':' :: ' ' :: "male".data) =
        (n ++ [':']) ++ (' ' :: "male".data) := by simp
    rw [hsplit]
    apply List.drop_left'
    simp
  cases n with
  | nil => simp at h2
  | cons c t =>
    have hc : genderNameChar c = true := hcl c (by simp)
    simp only [List.cons_append] at hrun hdrop hdrop1 ⊢
    rw [genderTry.eq_def]
    simp only [hc, hrun, hdrop, hdrop1, Bool.and_true, Bool.true_and]
    rw [if_pos trivial]
    have hcond : 2 ≤ (c :: t).length ∧ (c :: t).length ≤ 120 ∧
        ([':', ' ', 'm', 'a', 'l', 'e'] : List Char).head? = some ':' :=
      ⟨h2, h120, rfl⟩
    rw [if_pos hcond]
    have hw : (List.takeWhile isPySpace [' ', 'm', 'a', 'l', 'e']).length = 1 := by decide
    rw [hw]
    have hdk : List.drop 1 ([' ', 'm', 'a', 'l', 'e'] : List Char) = ['m', 'a', 'l', 'e'] := rfl
    rw [hdk]
    have hk : keywordCheck ['m', 'a', 'l', 'e'] = some 4 := by decide
    rw [hk]
    have hg : (List.take 4 (['m', 'a', 'l', 'e'] : List Char)).getLast? = some 'e' := by decide
    have harith : (c :: t).length + 1 + 1 + 4 = (c :: t).length + 6 := by omega
    simp only [hg, harith]

theorem gender_matches_keyword (n : List Char)
    (hcl : ∀ c ∈ n, genderNameChar c = true) (h2 : 2 ≤ n.length)
    (h120 : n.length ≤ 120) :
    gender_matches (n ++ (':' :: ' ' :: "male".data)) = [(0, n)] := by
  have htry := genderTry_keyword n hcl h2 h120
  cases n with
  | nil => simp at h2
  | cons c t =>
    simp only [List.cons_append] at htry ⊢
    rw [gender_matches, List.length_cons]
    rw [genderGo]
    rw [htry]
    have hlen : (c :: (t ++ ([':', ' ', 'm', 'a', 'l', 'e'] : List Char))).length =
        (c :: t).length + 6 := by
      simp [List.length_append]
    have hdropall :
        (c :: (t ++ ([':', ' ', 'm', 'a', 'l', 'e'] : List Char))).drop
          ((c :: t).length + 6) = [] := by
      apply List.drop_eq_nil_of_le
      rw [hlen]
    show (0, c :: t) ::
        genderGo ((t ++ [':', ' ', 'm', 'a', 'l', 'e']).length + 1)
          (List.drop ((c :: t).length + 6) (c :: (t ++ [':', ' ', 'm', 'a', 'l', 'e'])))
          (0 + ((c :: t).length + 6)) (some 'e') = [(0, c :: t)]
    rw [hdropall]
    rw [genderGo]

/-- C9: the gender-tag recognition.  For `src/index.py`'s `GENDER_TAG_RE`:
any run of 2 to 120 name-class characters immediately followed by a colon,
optional whitespace and the literal `male` is matched with the run as the
group (the case-insensitive literals `FEMALE` and `unknown` shown on a
concrete name).  For the gender glyphs, the repository's `RE_FALLBACK`
(`src/api/app.py`) supplies the rule: on `"Pikachu: ♂️"` no sparkle rule
fires, yet the name is emitted by `extract_names`. -/
theorem claim_C9 (n : List Char)
    (hcl : ∀ c ∈ n, genderNameChar c = true) (h2 : 2 ≤ n.length)
    (h120 : n.length ≤ 120) :
    gender_matches (n ++ (':' :: ' ' :: "male".data)) = [(0, n)] ∧
    gender_matches "Pikachu: FEMALE".data = [(0, "Pikachu".data)] ∧
    gender_matches "Pikachu: unknown".data = [(0, "Pikachu".data)] ∧
    app_sparkle_names "Pikachu: ♂️".data = [] ∧
    (extract_names "Pikachu: ♂️".data).1 = ["Pikachu".data] :=
  ⟨gender_matches_keyword n hcl h2 h120, by decide, by decide, by decide, by decide⟩

/-- Witness for C9 at a concrete name. -/
theorem claim_C9_witness :
    gender_matches ("Pikachu".data ++ (':' :: ' ' :: "male".data)) =
      [(0, "Pikachu".data)] :=
  (claim_C9 "Pikachu".data (by decide) (by decide) (by decide)).1

/-! ### Claim C4: order preservation. -/

theorem sorted_first_lt (qa qb : (Nat × List Char) → Bool) :
    ∀ (S : List (Nat × List Char)), S.Pairwise posLe →
      ∀ pa pb, minNat? ((S.filter qa).map (·.1)) = some pa →
        minNat? ((S.filter qb).map (·.1)) = some pb → pa < pb →
        S.findIdx qa < S.findIdx qb := by
  intro S
  induction S with
  | nil => intro _ pa pb hpa; simp [minNat?] at hpa
  | cons x S' ih =>
    intro hsort pa pb hpa hpb hlt
    rw [List.pairwise_cons] at hsort
    by_cases hqa : qa x = true
    · by_cases hqb : qb x = true
      · exfalso
        rw [List.filter_cons_of_pos hqa, List.map_cons] at hpa
        rw [List.filter_cons_of_pos hqb, List.map_cons] at hpb
        have ha := (minNat?_spec _ _).mp hpa
        have hb := (minNat?_spec _ _).mp hpb
        have h1 : pa ≤ x.1 := ha.2 x.1 (by simp)
        have h2 : pb ≤ x.1 := hb.2 x.1 (by simp)
        have h3 : x.1 ≤ pa := by
          rcases List.mem_cons.mp ha.1 with h | h
          · omega
          · obtain ⟨e, he, hex⟩ := List.mem_map.mp h
            have hle : posLe x e := hsort.1 e (List.mem_filter.mp he).1
            rw [← hex]
            exact hle
        have h4 : x.1 ≤ pb := by
          rcases List.mem_cons.mp hb.1 with h | h
          · omega
          · obtain ⟨e, he, hex⟩ := List.mem_map.mp h
            have hle : posLe x e := hsort.1 e (List.mem_filter.mp he).1
            rw [← hex]
            exact hle
        omega
      · rw [List.findIdx_cons, List.findIdx_cons, hqa]
        have hqb' : qb x = false := by simpa using hqb
        rw [hqb']
        simp
    · by_cases hqb : qb x = true
      · exfalso
        rw [List.filter_cons_of_pos hqb, List.map_cons] at hpb
        rw [List.filter_cons_of_neg (by simpa using hqa)] at hpa
        have ha := (minNat?_spec _ _).mp hpa
        have hb := (minNat?_spec _ _).mp hpb
        have h2 : pb ≤ x.1 := hb.2 x.1 (by simp)
        have h3 : x.1 ≤ pa := by
          obtain ⟨e, he, hex⟩ := List.mem_map.mp ha.1
          have hle : posLe x e := hsort.1 e (List.mem_filter.mp he).1
          rw [← hex]
          exact hle
        omega
      · rw [List.filter_cons_of_neg (by simpa using hqa)] at hpa
        rw [List.filter_cons_of_neg (by simpa using hqb)] at hpb
        rw [List.findIdx_cons, List.findIdx_cons]
        have hqa' : qa x = false := by simpa using hqa
        have hqb' : qb x = false := by simpa using hqb
        rw [hqa', hqb']
        simp only [cond_false]
        have := ih hsort.2 pa pb hpa hpb hlt
        omega

theorem c4_core (text : List Char) (a b : List Char)
    (ha : a ∈ (dedupe_preserve_first (extract_names_in_order text)).1)
    (hb : b ∈ (dedupe_preserve_first (extract_names_in_order text)).1)
    (pa pb : Nat)
    (hpa : minNat? (((cleanedMatches text).filter
      (fun p => pyCasefold p.2 == pyCasefold a)).map (·.1)) = some pa)
    (hpb : minNat? (((cleanedMatches text).filter
      (fun p => pyCasefold p.2 == pyCasefold b)).map (·.1)) = some pb)
    (hlt : pa < pb) :
    ((dedupe_preserve_first (extract_names_in_order text)).1).findIdx
      (fun x => x == a) <
    ((dedupe_preserve_first (extract_names_in_order text)).1).findIdx
      (fun x => x == b) := by
  by_cases hemp : text.isEmpty = true
  · exfalso
    rw [extract_names_in_order] at ha
    rw [if_pos hemp] at ha
    simp [dedupe_preserve_first] at ha
  · have hnames : extract_names_in_order text =
        (List.insertionSort posLe (cleanedMatches text)).map (·.2) := by
      rw [extract_names_in_order, if_neg hemp]
    have hperm : (List.insertionSort posLe (cleanedMatches text)).Perm
        (cleanedMatches text) := List.perm_insertionSort posLe _
    have hsorted : (List.insertionSort posLe (cleanedMatches text)).Pairwise posLe :=
      List.sorted_insertionSort posLe _
    have hpaS : minNat? (((List.insertionSort posLe (cleanedMatches text)).filter
        (fun p => pyCasefold p.2 == pyCasefold a)).map (·.1)) = some pa := by
      rw [minNat?_perm (List.Perm.map _ (hperm.filter _))]
      exact hpa
    have hpbS : minNat? (((List.insertionSort posLe (cleanedMatches text)).filter
        (fun p => pyCasefold p.2 == pyCasefold b)).map (·.1)) = some pb := by
      rw [minNat?_perm (List.Perm.map _ (hperm.filter _))]
      exact hpb
    have hidxS := sorted_first_lt (fun p => pyCasefold p.2 == pyCasefold a)
      (fun p => pyCasefold p.2 == pyCasefold b)
      (List.insertionSort posLe (cleanedMatches text)) hsorted pa pb hpaS hpbS hlt
    have hia : (extract_names_in_order text).findIdx
        (fun n => pyCasefold n == pyCasefold a) =
        (List.insertionSort posLe (cleanedMatches text)).findIdx
          (fun p => pyCasefold p.2 == pyCasefold a) := by
      rw [hnames, findIdx_map]
    have hib : (extract_names_in_order text).findIdx
        (fun n => pyCasefold n == pyCasefold b) =
        (List.insertionSort posLe (cleanedMatches text)).findIdx
          (fun p => pyCasefold p.2 == pyCasefold b) := by
      rw [hnames, findIdx_map]
    have hex : ∃ n ∈ extract_names_in_order text, pyCasefold n = pyCasefold a :=
      ⟨a, dedupe_unique_src _ a ha, rfl⟩
    have hseen := seenFold_order pyCasefold (extract_names_in_order text) []
      (pyCasefold a) (pyCasefold b) (by simp) (by simp) hex
      (by rw [hia, hib]; exact hidxS)
    have hu : (dedupe_preserve_first (extract_names_in_order text)).1 =
        ((extract_names_in_order text).foldl (seenInsert pyCasefold) []).map (·.2) := by
      simp only [dedupe_preserve_first]
      rw [dedupeFold_fst0]
    have hinv := seenFold_inv pyCasefold (extract_names_in_order text) []
      (by intro p hp; simp at hp)
    have hnd := seenFold_nodup pyCasefold (extract_names_in_order text) [] (by simp)
    have hpt : ∀ (x : List Char),
        x ∈ (dedupe_preserve_first (extract_names_in_order text)).1 →
        ∀ p ∈ (extract_names_in_order text).foldl (seenInsert pyCasefold) [],
          (p.2 == x) = (p.1 == pyCasefold x) := by
      intro x hx p hp
      rw [hu] at hx
      obtain ⟨q, hq, hqx⟩ := List.mem_map.mp hx
      by_cases h : p.2 = x
      · have : p.1 = pyCasefold x := by rw [hinv p hp, h]
        simp [h, this]
      · have h2 : ¬(p.1 = pyCasefold x) := by
          intro hk
          have hq1 : q.1 = pyCasefold x := by rw [hinv q hq, hqx]
          have := assoc_unique _ hnd p q hp hq (by rw [hk, hq1])
          rw [this] at h
          exact h hqx
        simp [h, h2]
    rw [hu, findIdx_map, findIdx_map]
    have ea : (((extract_names_in_order text).foldl (seenInsert pyCasefold) []).findIdx
        (fun p => (fun x => x == a) p.2)) =
        (((extract_names_in_order text).foldl (seenInsert pyCasefold) []).findIdx
        (fun p => p.1 == pyCasefold a)) :=
      findIdx_congr (fun p hp => hpt a ha p hp)
    have eb : (((extract_names_in_order text).foldl (seenInsert pyCasefold) []).findIdx
        (fun p => (fun x => x == b) p.2)) =
        (((extract_names_in_order text).foldl (seenInsert pyCasefold) []).findIdx
        (fun p => p.1 == pyCasefold b)) :=
      findIdx_congr (fun p hp => hpt b hb p hp)
    rw [ea, eb]
    exact hseen

/-- The position in the source text of a name's first raw match: the minimum
offset among the cleaned matches whose case-folded name equals the
case-folded form of `a`. -/
def firstMatchPos (s : String) (a : String) : Option Nat :=
  minNat? (((cleanedMatches s.data).filter
    (fun p => pyCasefold p.2 == pyCasefold a.data)).map (·.1))

/-- Index of the first occurrence of `a` in a list of strings. -/
def posIn (l : List String) (a : String) : Nat :=
  l.findIdx (fun x => x == a)

theorem beq_mk_data (v : List Char) (a : String) :
    ((⟨v⟩ : String) == a) = (v == a.data) := by
  rcases a with ⟨ad⟩
  by_cases h : v = ad
  · subst h; simp
  · have h1 : ¬((⟨v⟩ : String) = ⟨ad⟩) := by
      intro hc
      injection hc with h2
      exact h h2
    have e1 : ((⟨v⟩ : String) == ⟨ad⟩) = false := by simpa using h1
    have e2 : (v == ad) = false := by simpa using h
    rw [e1]
    exact e2.symm

/-- C4: first-seen order is preserved.  If both `a` and `b` appear in the
unique list of `extract s` and the first raw match whose cleaned name
case-folds like `a` occurs at a strictly earlier source-text offset than
`b`'s, then `a` precedes `b` in the unique list. -/
theorem claim_C4 (s : String) (a b : String)
    (ha : a ∈ (extract s).1) (hb : b ∈ (extract s).1) (pa pb : Nat)
    (hpa : firstMatchPos s a = some pa) (hpb : firstMatchPos s b = some pb)
    (hlt : pa < pb) :
    posIn (extract s).1 a < posIn (extract s).1 b := by
  have hadata : a.data ∈ (dedupe_preserve_first (extract_names_in_order s.data)).1 := by
    simp only [extract] at ha
    obtain ⟨v, hv, hva⟩ := List.mem_map.mp ha
    rw [← hva]
    exact hv
  have hbdata : b.data ∈ (dedupe_preserve_first (extract_names_in_order s.data)).1 := by
    simp only [extract] at hb
    obtain ⟨v, hv, hvb⟩ := List.mem_map.mp hb
    rw [← hvb]
    exact hv
  have hcore := c4_core s.data a.data b.data hadata hbdata pa pb hpa hpb hlt
  simp only [extract, posIn]
  rw [findIdx_map, findIdx_map]
  have ea := findIdx_congr
    (l := (dedupe_preserve_first (extract_names_in_order s.data)).1)
    (fun v _ => beq_mk_data v a)
  have eb := findIdx_congr
    (l := (dedupe_preserve_first (extract_names_in_order s.data)).1)
    (fun v _ => beq_mk_data v b)
  rw [ea, eb]
  exact hcore

/-- Witness for C4 at a concrete two-name input. -/
theorem claim_C4_witness :
    posIn (extract "✨ Pikachu: male\n✨ Corsola: male").1 "Pikachu" <
    posIn (extract "✨ Pikachu: male\n✨ Corsola: male").1 "Corsola" :=
  claim_C4 "✨ Pikachu: male\n✨ Corsola: male" "Pikachu" "Corsola"
    (by decide) (by decide) 0 16 (by decide) (by decide) (by decide)
